import Mathlib

/-!
Verification of the Base58 codec in `Sources/CCrypto/base58.c`
(functions `b58tobin`, `b58enc`, `base58_encode`, `base58_decode`).

Byte strings (`const char *` / `uint8_t *` data) are modelled as `List Nat`
whose entries are byte values.  The 32-bit chunk accumulators are modelled as
`Nat` with explicit `% 2 ^ 32`; `t >> 32` becomes `t / 2 ^ 32` and
`t & b58_almostmaxint_mask` becomes `t % 2 ^ 32`.
-/

/-- The alphabet `b58digits_ordered` from the source. -/
def b58digits_ordered : String :=
  "123456789ABCDEFGHJKLMNPQRSTUVWXYZabcdefghijkmnopqrstuvwxyz"

/-- The alphabet as a list of byte values. -/
def b58ord : List Nat := b58digits_ordered.data.map Char.toNat

/-- The digit lookup table `b58digits_map` (128 entries, `-1` = invalid). -/
def b58digits_map : List Int :=
  [-1, -1, -1, -1, -1, -1, -1, -1, -1, -1, -1, -1, -1, -1, -1, -1, -1, -1, -1,
   -1, -1, -1, -1, -1, -1, -1, -1, -1, -1, -1, -1, -1, -1, -1, -1, -1, -1, -1,
   -1, -1, -1, -1, -1, -1, -1, -1, -1, -1, -1, 0,  1,  2,  3,  4,  5,  6,  7,
   8,  -1, -1, -1, -1, -1, -1, -1, 9,  10, 11, 12, 13, 14, 15, 16, -1, 17, 18,
   19, 20, 21, -1, 22, 23, 24, 25, 26, 27, 28, 29, 30, 31, 32, -1, -1, -1, -1,
   -1, -1, 33, 34, 35, 36, 37, 38, 39, 40, 41, 42, 43, -1, 44, 45, 46, 47, 48,
   49, 50, 51, 52, 53, 54, 55, 56, 57, -1, -1, -1, -1, -1]

/-- The digit lookup performed by `b58tobin` for one input byte
(`if (b58u[i] & 0x80) return false; if (b58digits_map[b58u[i]] == -1) return false;`):
`none` models the two `return false` branches, `some c` the accepted digit value. -/
def b58lookup (ch : Nat) : Option Nat :=
  if ch &&& 0x80 ≠ 0 then none
  else
    match b58digits_map.get? ch with
    | none => none
    | some v => if v = -1 then none else some v.toNat

def b58_almostmaxint_bits : Nat := 32

def b58_almostmaxint_mask : Nat := 2 ^ 32 - 1

/-- One pass of `b58tobin`'s inner loop `for (j = outisz; j--;)` over the whole
chunk list (`outi` is big-endian, index `0` most significant; the loop runs from
the least significant chunk upwards, so the recursion processes the tail first):
`t = outi[j]*58 + c; c = t >> 32; outi[j] = t & mask`.
Returns the final carry together with the updated chunks. -/
def b58tobin_mulStep (c : Nat) : List Nat → Nat × List Nat
  | [] => (c, [])
  | d :: rest =>
    let p := b58tobin_mulStep c rest
    let t := d * 58 + p.1
    (t / 2 ^ 32, t % 2 ^ 32 :: p.2)

/-- `b58tobin`'s main loop over the characters after the leading-`'1'` prefix:
digit lookup, multiply-accumulate, then the two overflow checks
(`if (c) return false;` and `if (outi[0] & zeromask) return false;`). -/
def b58tobin_loop (zeromask : Nat) (outi : List Nat) : List Nat → Option (List Nat)
  | [] => some outi
  | ch :: rest =>
    match b58lookup ch with
    | none => none
    | some c =>
      let p := b58tobin_mulStep c outi
      if p.1 ≠ 0 then none
      else if p.2.headD 0 &&& zeromask ≠ 0 then none
      else b58tobin_loop zeromask p.2 rest

/-- Big-endian bytes of `x`, `k` bytes wide: the source writes
`(x >> (8 * (i - 1))) & 0xff` for `i = k, ..., 1`. -/
def natToBytesBE (k : Nat) (x : Nat) : List Nat :=
  (List.range k).reverse.map (fun i => x / 2 ^ (8 * i) % 256)

/-- Serialization of the chunk list to the output buffer (the two byte-writing
loops of `b58tobin`): `bytesleft` bytes of `outi[0]` when `bytesleft != 0`
(otherwise all four), then four bytes of every remaining chunk. -/
def b58tobin_serialize (bytesleft : Nat) : List Nat → List Nat
  | [] => []
  | first :: rest =>
    natToBytesBE (if bytesleft ≠ 0 then bytesleft else 4) first
      ++ (rest.map (natToBytesBE 4)).flatten

/-- The canonical-length loop at the end of `b58tobin`: `i` is the scan index,
`binszp` the running `*binszp` (decremented once per leading zero byte); at the
first nonzero byte the check `if (zerocount > i) return false;` applies, and on
exit `*binszp += zerocount`. -/
def b58tobin_count (zerocount : Nat) : Nat → Nat → List Nat → Option Nat
  | _, binszp, [] => some (binszp + zerocount)
  | i, binszp, x :: rest =>
    if x ≠ 0 then
      if zerocount > i then none else some (binszp + zerocount)
    else b58tobin_count zerocount (i + 1) (binszp - 1) rest

/-- `zeromask = bytesleft ? (b58_almostmaxint_mask << (bytesleft * 8)) : 0`,
the shift truncated to the 32-bit chunk width. -/
def b58tobin_zeromask (binsz : Nat) : Nat :=
  if binsz % 4 ≠ 0 then b58_almostmaxint_mask <<< (binsz % 4 * 8) % 2 ^ 32 else 0

/-- The digit-processing and serialization stages of `b58tobin` (everything up
to and including the byte-writing loops): `none` is `return false`, `some bytes`
the contents of the output buffer `bin` (always `binsz` bytes). -/
def b58tobin_bytes? (b58 : List Nat) (binsz : Nat) : Option (List Nat) :=
  if binsz = 0 then none
  else
    (b58tobin_loop (b58tobin_zeromask binsz) (List.replicate ((binsz + 4 - 1) / 4) 0)
        (b58.dropWhile (· == 49))).map (b58tobin_serialize (binsz % 4))

/-- `b58tobin(bin, binszp, b58)` with entering `*binszp = binsz`:
`none` is `return false`; `some (bytes, res)` is `return true` with `bin`
holding `bytes` and `*binszp` set to `res`.  `49` is `'1'`, the character
counted by the leading-zero loop. -/
def b58tobin (b58 : List Nat) (binsz : Nat) : Option (List Nat × Nat) :=
  match b58tobin_bytes? b58 binsz with
  | none => none
  | some bytes =>
    match b58tobin_count ((b58.takeWhile (· == 49)).length) 0 binsz bytes with
    | none => none
    | some res => some (bytes, res)

/-- One pass of `b58enc`'s inner carry loop over the whole scratch buffer
(`buf` is big-endian; the loop runs from the least significant position, so the
recursion processes the tail first): `carry += 256 * buf[j]; buf[j] = carry % 58;
carry /= 58`.  The source exits the pass early once the carry is exhausted and
the remaining (more significant) positions are above the high-water mark `high`;
those positions are all zero then and a full pass rewrites them with `0 % 58 = 0`,
so processing every position yields the identical buffer. -/
def b58enc_step (carry : Nat) : List Nat → Nat × List Nat
  | [] => (carry, [])
  | d :: rest =>
    let p := b58enc_step carry rest
    let t := p.1 + 256 * d
    (t / 58, t % 58 :: p.2)

/-- The outer loop of `b58enc` over the input bytes after the zero prefix.
The final carry of a pass is dropped exactly as the `if (!j) break;` does. -/
def b58enc_buf (data : List Nat) (size : Nat) : List Nat :=
  data.foldl (fun buf byte => (b58enc_step byte buf).2) (List.replicate size 0)

/-- `zcount`: leading `0x00` bytes of the input. -/
def b58enc_zcount (data : List Nat) : Nat := (data.takeWhile (· == 0)).length

/-- `size = (binsz - zcount) * 138 / 100 + 1`. -/
def b58enc_size (data : List Nat) : Nat :=
  (data.length - b58enc_zcount data) * 138 / 100 + 1

/-- The scratch digits that remain after `for (j = 0; j < size && !buf[j]; ++j);`
skips the leading zero digits. -/
def b58enc_digits (data : List Nat) : List Nat :=
  (b58enc_buf (data.drop (b58enc_zcount data)) (b58enc_size data)).dropWhile (· == 0)

/-- `zcount + size - j`: the length of the produced string. -/
def b58enc_len (data : List Nat) : Nat :=
  b58enc_zcount data + (b58enc_digits data).length

/-- `b58enc(b58, b58sz, data, binsz)` with entering `*b58sz = b58sz`:
the result is `(returned bool, final *b58sz, string written)`.  On failure
(`*b58sz <= zcount + size - j`) the string is untouched, `*b58sz` is set to the
needed size `zcount + size - j + 1`; on success the string is `zcount` copies of
`'1'` (byte `49`) followed by the scratch digits mapped through
`b58digits_ordered`, and `*b58sz = i + 1` (string length plus terminator). -/
def b58enc (b58sz : Nat) (data : List Nat) : Bool × Nat × List Nat :=
  if b58sz ≤ b58enc_len data then (false, b58enc_len data + 1, [])
  else
    (true, b58enc_len data + 1,
      List.replicate (b58enc_zcount data) 49
        ++ (b58enc_digits data).map (fun d => b58ord.getD d 0))

/-- `base58_encode`: returns `0` when `b58enc` fails, else the resulting
`*b58sz`. -/
def base58_encode (data : List Nat) (strsize : Nat) : Nat :=
  let r := b58enc strsize data
  if r.1 then r.2.1 else 0

/-- `base58_decode`: returns `0` when `b58tobin` fails, else `res`, together
with the `res` bytes copied from offset `datalen - res` of the scratch buffer
(`memcpy(data, d + datalen - res, res)`). -/
def base58_decode (str : List Nat) (datalen : Nat) : Nat × List Nat :=
  match b58tobin str datalen with
  | none => (0, [])
  | some (bytes, res) => (res, bytes.drop (datalen - res))

/-- Big-endian value of a digit list in the given base. -/
def valBE (base : Nat) (l : List Nat) : Nat := l.foldl (fun a d => a * base + d) 0

/-- The numeric value a Base58 string denotes, `none` when some character is
not a valid digit (specification-side helper, built on the source's lookup). -/
def b58strValAux (acc : Nat) : List Nat → Option Nat
  | [] => some acc
  | ch :: rest =>
    match b58lookup ch with
    | none => none
    | some d => b58strValAux (acc * 58 + d) rest

def b58strVal (s : List Nat) : Option Nat := b58strValAux 0 s

/-! ### Basic facts about `valBE` -/

theorem foldl_valBE (base : Nat) (l : List Nat) (a : Nat) :
    l.foldl (fun x d => x * base + d) a = a * base ^ l.length + valBE base l := by
  induction l generalizing a with
  | nil => simp [valBE]
  | cons d rest ih =>
    simp only [List.foldl_cons, List.length_cons, valBE, Nat.zero_mul, Nat.zero_add]
    rw [ih (a * base + d), ih d]
    ring

theorem valBE_cons (base d : Nat) (rest : List Nat) :
    valBE base (d :: rest) = d * base ^ rest.length + valBE base rest := by
  simp only [valBE, List.foldl_cons, Nat.zero_mul, Nat.zero_add]
  rw [foldl_valBE base rest d, valBE]

theorem valBE_lt (base : Nat) (l : List Nat) (h : ∀ x ∈ l, x < base) :
    valBE base l < base ^ l.length := by
  induction l with
  | nil => simp [valBE]
  | cons d rest ih =>
    rw [valBE_cons, List.length_cons, pow_succ]
    have hd : d < base := h d (List.mem_cons_self d rest)
    have hr : valBE base rest < base ^ rest.length :=
      ih fun x hx => h x (List.mem_cons_of_mem d hx)
    calc d * base ^ rest.length + valBE base rest
        < d * base ^ rest.length + base ^ rest.length := by omega
      _ = (d + 1) * base ^ rest.length := by ring
      _ ≤ base * base ^ rest.length := Nat.mul_le_mul_right _ (by omega)
      _ = base ^ rest.length * base := by ring

theorem valBE_replicate_zero (base n : Nat) : valBE base (List.replicate n 0) = 0 := by
  induction n with
  | zero => rfl
  | succ k ih => rw [List.replicate_succ, valBE_cons, ih]; ring

theorem valBE_dropWhile_zero (base : Nat) (l : List Nat) :
    valBE base (l.dropWhile (· == 0)) = valBE base l := by
  induction l with
  | nil => rfl
  | cons d rest ih =>
    by_cases hd : d = 0
    · subst hd
      rw [List.dropWhile_cons_of_pos (by simp), ih, valBE_cons]
      ring
    · rw [List.dropWhile_cons_of_neg (by simpa using hd)]

/-! ### The encoder's carry loop -/

theorem b58enc_step_len (carry : Nat) (buf : List Nat) :
    (b58enc_step carry buf).2.length = buf.length := by
  induction buf with
  | nil => rfl
  | cons d rest ih => simp only [b58enc_step, List.length_cons, ih]

theorem b58enc_step_mem (carry : Nat) (buf : List Nat) :
    ∀ x ∈ (b58enc_step carry buf).2, x < 58 := by
  induction buf with
  | nil => simp [b58enc_step]
  | cons d rest ih =>
    intro x hx
    simp only [b58enc_step, List.mem_cons] at hx
    rcases hx with h | h
    · subst h; exact Nat.mod_lt _ (by norm_num)
    · exact ih x h

theorem b58enc_step_val (carry : Nat) (buf : List Nat) :
    valBE 58 (b58enc_step carry buf).2 + (b58enc_step carry buf).1 * 58 ^ buf.length
      = 256 * valBE 58 buf + carry := by
  induction buf with
  | nil => simp [b58enc_step, valBE]
  | cons d rest ih =>
    simp only [b58enc_step]
    rw [valBE_cons, valBE_cons, b58enc_step_len]
    set p := b58enc_step carry rest with hp
    set t := p.1 + 256 * d with ht
    calc t % 58 * 58 ^ rest.length + valBE 58 p.2 + t / 58 * 58 ^ (rest.length + 1)
        = (t % 58 + 58 * (t / 58)) * 58 ^ rest.length + valBE 58 p.2 := by rw [pow_succ]; ring
      _ = t * 58 ^ rest.length + valBE 58 p.2 := by rw [Nat.mod_add_div]
      _ = 256 * d * 58 ^ rest.length + (valBE 58 p.2 + p.1 * 58 ^ rest.length) := by
          rw [ht]; ring
      _ = 256 * d * 58 ^ rest.length + (256 * valBE 58 rest + carry) := by rw [ih]
      _ = 256 * (d * 58 ^ rest.length + valBE 58 rest) + carry := by ring

/-- The value accumulated by `foldl (x * 256 + d)` modulo `m` depends only on
the starting accumulator modulo `m`. -/
theorem foldl_mul256_mod (m : Nat) (l : List Nat) :
    ∀ a a', a % m = a' % m →
      (l.foldl (fun x d => x * 256 + d) a) % m = (l.foldl (fun x d => x * 256 + d) a') % m := by
  induction l with
  | nil => intro a a' h; simpa using h
  | cons d rest ih =>
    intro a a' h
    simp only [List.foldl_cons]
    exact ih _ _ (Nat.ModEq.add_right d (Nat.ModEq.mul_right 256 h))

theorem b58enc_fold_spec (bytes : List Nat) :
    ∀ buf : List Nat, (∀ x ∈ buf, x < 58) →
      ((bytes.foldl (fun b byte => (b58enc_step byte b).2) buf).length = buf.length)
      ∧ (∀ x ∈ bytes.foldl (fun b byte => (b58enc_step byte b).2) buf, x < 58)
      ∧ valBE 58 (bytes.foldl (fun b byte => (b58enc_step byte b).2) buf)
          = (bytes.foldl (fun a byte => a * 256 + byte) (valBE 58 buf)) % 58 ^ buf.length := by
  induction bytes with
  | nil =>
    intro buf hbuf
    refine ⟨rfl, hbuf, ?_⟩
    exact (Nat.mod_eq_of_lt (valBE_lt 58 buf hbuf)).symm
  | cons b rest ih =>
    intro buf hbuf
    simp only [List.foldl_cons]
    obtain ⟨ihlen, ihmem, ihval⟩ := ih (b58enc_step b buf).2 (b58enc_step_mem b buf)
    refine ⟨by rw [ihlen, b58enc_step_len], ihmem, ?_⟩
    rw [ihval, b58enc_step_len]
    have hdrop : valBE 58 (b58enc_step b buf).2 = (256 * valBE 58 buf + b) % 58 ^ buf.length := by
      have hv := b58enc_step_val b buf
      have hlt : valBE 58 (b58enc_step b buf).2 < 58 ^ buf.length := by
        rw [← b58enc_step_len b buf]
        exact valBE_lt 58 _ (b58enc_step_mem b buf)
      calc valBE 58 (b58enc_step b buf).2
          = valBE 58 (b58enc_step b buf).2 % 58 ^ buf.length := (Nat.mod_eq_of_lt hlt).symm
        _ = (valBE 58 (b58enc_step b buf).2
              + (b58enc_step b buf).1 * 58 ^ buf.length) % 58 ^ buf.length := by
            rw [Nat.add_mul_mod_self_right]
        _ = (256 * valBE 58 buf + b) % 58 ^ buf.length := by rw [hv]
    apply foldl_mul256_mod
    rw [hdrop, Nat.mod_mod_of_dvd _ dvd_rfl, Nat.mul_comm 256]

theorem b58enc_buf_length (bytes : List Nat) (size : Nat) :
    (b58enc_buf bytes size).length = size := by
  have h := (b58enc_fold_spec bytes (List.replicate size 0)
    (by intro x hx; rw [List.eq_of_mem_replicate hx]; norm_num)).1
  rw [b58enc_buf, h, List.length_replicate]

theorem b58enc_buf_mem (bytes : List Nat) (size : Nat) :
    ∀ x ∈ b58enc_buf bytes size, x < 58 := by
  exact (b58enc_fold_spec bytes (List.replicate size 0)
    (by intro x hx; rw [List.eq_of_mem_replicate hx]; norm_num)).2.1

theorem b58enc_buf_val (bytes : List Nat) (size : Nat) :
    valBE 58 (b58enc_buf bytes size) = valBE 256 bytes % 58 ^ size := by
  have h := (b58enc_fold_spec bytes (List.replicate size 0)
    (by intro x hx; rw [List.eq_of_mem_replicate hx]; norm_num)).2.2
  rw [b58enc_buf, h, valBE_replicate_zero, List.length_replicate, valBE]

/-- `size = m * 138 / 100 + 1` scratch digits never overflow:
`58 ^ size` dominates `256 ^ m` (the ratio `138/100` over-approximates
`log 256 / log 58`). -/
theorem pow58_size_bound (m : Nat) : 256 ^ m ≤ 58 ^ (m * 138 / 100 + 1) := by
  have key : (256 : Nat) ^ 100 ≤ 58 ^ 138 := by decide
  have h1 : 138 * m ≤ 100 * (m * 138 / 100 + 1) := by omega
  have h2 : (256 ^ m) ^ 100 ≤ (58 ^ (m * 138 / 100 + 1)) ^ 100 := by
    calc (256 ^ m) ^ 100 = (256 ^ 100) ^ m := by
          rw [← pow_mul, ← pow_mul, Nat.mul_comm]
      _ ≤ (58 ^ 138) ^ m := Nat.pow_le_pow_left key m
      _ = 58 ^ (138 * m) := by rw [← pow_mul]
      _ ≤ 58 ^ (100 * (m * 138 / 100 + 1)) := Nat.pow_le_pow_right (by norm_num) h1
      _ = (58 ^ (m * 138 / 100 + 1)) ^ 100 := by rw [← pow_mul, Nat.mul_comm]
  exact (Nat.pow_le_pow_iff_left (by norm_num)).mp h2

/-! ### The decoder's multiply-accumulate loop -/

theorem b58tobin_mulStep_len (c : Nat) (outi : List Nat) :
    (b58tobin_mulStep c outi).2.length = outi.length := by
  induction outi with
  | nil => rfl
  | cons d rest ih => simp only [b58tobin_mulStep, List.length_cons, ih]

theorem b58tobin_mulStep_mem (c : Nat) (outi : List Nat) :
    ∀ x ∈ (b58tobin_mulStep c outi).2, x < 2 ^ 32 := by
  induction outi with
  | nil => simp [b58tobin_mulStep]
  | cons d rest ih =>
    intro x hx
    simp only [b58tobin_mulStep, List.mem_cons] at hx
    rcases hx with h | h
    · subst h; exact Nat.mod_lt _ (by norm_num)
    · exact ih x h

theorem b58tobin_mulStep_val (c : Nat) (outi : List Nat) :
    valBE (2 ^ 32) (b58tobin_mulStep c outi).2
        + (b58tobin_mulStep c outi).1 * (2 ^ 32) ^ outi.length
      = 58 * valBE (2 ^ 32) outi + c := by
  induction outi with
  | nil => simp [b58tobin_mulStep, valBE]
  | cons d rest ih =>
    simp only [b58tobin_mulStep]
    rw [valBE_cons, valBE_cons, b58tobin_mulStep_len]
    set p := b58tobin_mulStep c rest with hp
    set t := d * 58 + p.1 with ht
    calc t % 2 ^ 32 * (2 ^ 32) ^ rest.length + valBE (2 ^ 32) p.2
          + t / 2 ^ 32 * (2 ^ 32) ^ (rest.length + 1)
        = (t % 2 ^ 32 + 2 ^ 32 * (t / 2 ^ 32)) * (2 ^ 32) ^ rest.length
            + valBE (2 ^ 32) p.2 := by rw [pow_succ]; ring
      _ = t * (2 ^ 32) ^ rest.length + valBE (2 ^ 32) p.2 := by rw [Nat.mod_add_div]
      _ = 58 * d * (2 ^ 32) ^ rest.length
            + (valBE (2 ^ 32) p.2 + p.1 * (2 ^ 32) ^ rest.length) := by rw [ht]; ring
      _ = 58 * d * (2 ^ 32) ^ rest.length + (58 * valBE (2 ^ 32) rest + c) := by rw [ih]
      _ = 58 * (d * (2 ^ 32) ^ rest.length + valBE (2 ^ 32) rest) + c := by ring

/-! ### The `zeromask` overflow test -/

/-- For a 32-bit chunk `x`, `x & zeromask` is zero exactly when `x` fits in the
low `binsz % 4` bytes of the chunk. -/
theorem land_zeromask_eq_zero_iff (binsz : Nat) (hbl : binsz % 4 ≠ 0)
    (x : Nat) (hx : x < 2 ^ 32) :
    x &&& b58tobin_zeromask binsz = 0 ↔ x < 2 ^ (8 * (binsz % 4)) := by
  set bl := binsz % 4 with hbldef
  have hbl4 : bl < 4 := Nat.mod_lt _ (by norm_num)
  have hmask : ∀ i : Nat, (b58tobin_zeromask binsz).testBit i = (decide (bl * 8 ≤ i) && decide (i < 32)) := by
    intro i
    rw [b58tobin_zeromask, if_pos hbl, b58_almostmaxint_mask]
    rw [Nat.testBit_mod_two_pow, Nat.testBit_shiftLeft, Nat.testBit_two_pow_sub_one]
    rcases Nat.lt_or_ge i 32 with h32 | h32
    · have : i - bl * 8 < 32 := by omega
      simp [h32, this, ge_iff_le]
    · simp [Nat.not_lt.mpr h32]
  constructor
  · intro h
    apply Nat.lt_pow_two_of_testBit
    intro i hi
    rcases Nat.lt_or_ge i 32 with h32 | h32
    · have hz : (x &&& b58tobin_zeromask binsz).testBit i = false := by
        rw [h]; exact Nat.zero_testBit i
      rw [Nat.testBit_land, hmask] at hz
      have hm : (decide (bl * 8 ≤ i) && decide (i < 32)) = true := by
        simp [h32]; omega
      rw [hm, Bool.and_true] at hz
      exact hz
    · exact Nat.testBit_lt_two_pow (lt_of_lt_of_le hx (Nat.pow_le_pow_right (by norm_num) h32))
  · intro h
    apply Nat.eq_of_testBit_eq
    intro i
    rw [Nat.testBit_land, hmask, Nat.zero_testBit]
    rcases Nat.lt_or_ge i (bl * 8) with hlow | hhigh
    · simp [Nat.not_le.mpr hlow]
    · have : x.testBit i = false :=
        Nat.testBit_lt_two_pow
          (lt_of_lt_of_le h (Nat.pow_le_pow_right (by norm_num) (by omega)))
      simp [this]

/-! ### One digit step of the decoder: checks pass iff the value still fits -/

theorem b58tobin_step_iff (binsz : Nat) (hb : 0 < binsz) (outi : List Nat)
    (hlen : outi.length = (binsz + 4 - 1) / 4) (hmem : ∀ x ∈ outi, x < 2 ^ 32) (c : Nat) :
    ((b58tobin_mulStep c outi).1 = 0
        ∧ (b58tobin_mulStep c outi).2.headD 0 &&& b58tobin_zeromask binsz = 0)
      ↔ 58 * valBE (2 ^ 32) outi + c < 2 ^ (8 * binsz) := by
  set p := b58tobin_mulStep c outi with hp
  have hval := b58tobin_mulStep_val c outi
  have hplen : p.2.length = outi.length := b58tobin_mulStep_len c outi
  have hpmem : ∀ x ∈ p.2, x < 2 ^ 32 := b58tobin_mulStep_mem c outi
  have hvlt : valBE (2 ^ 32) p.2 < (2 ^ 32) ^ outi.length := by
    rw [← hplen]; exact valBE_lt _ _ hpmem
  by_cases hbl : binsz % 4 = 0
  · -- binsz is a multiple of the chunk width: the mask test is vacuous
    have hzm : b58tobin_zeromask binsz = 0 := by
      rw [b58tobin_zeromask, if_neg (by simpa using hbl)]
    have hcap : 2 ^ (8 * binsz) = (2 ^ 32) ^ outi.length := by
      rw [hlen, ← pow_mul]
      congr 1
      omega
    rw [hzm, Nat.and_zero, hcap]
    constructor
    · rintro ⟨h0, -⟩
      rw [h0, Nat.zero_mul, Nat.add_zero] at hval
      rw [← hval]; exact hvlt
    · intro hfit
      refine ⟨?_, rfl⟩
      by_contra hne
      have h1 : 1 ≤ p.1 := Nat.one_le_iff_ne_zero.mpr hne
      have : (2 ^ 32) ^ outi.length ≤ 58 * valBE (2 ^ 32) outi + c := by
        calc (2 ^ 32) ^ outi.length = 1 * (2 ^ 32) ^ outi.length := by ring
          _ ≤ p.1 * (2 ^ 32) ^ outi.length := Nat.mul_le_mul_right _ h1
          _ ≤ valBE (2 ^ 32) p.2 + p.1 * (2 ^ 32) ^ outi.length := Nat.le_add_left _ _
          _ = 58 * valBE (2 ^ 32) outi + c := hval
      omega
  · -- partial most-significant chunk
    set k := binsz / 4 with hk
    have hok : outi.length = k + 1 := by rw [hlen]; omega
    obtain ⟨h, tl, hcons⟩ : ∃ h tl, p.2 = h :: tl := by
      rcases p2 : p.2 with _ | ⟨h, tl⟩
      · rw [p2] at hplen; rw [hok] at hplen; simp at hplen
      · exact ⟨h, tl, rfl⟩
    have htllen : tl.length = k := by
      have := hplen; rw [hcons, hok] at this; simpa using this
    have hhead : p.2.headD 0 = h := by rw [hcons]; rfl
    have hh32 : h < 2 ^ 32 := hpmem h (by rw [hcons]; exact List.mem_cons_self _ _)
    have htlmem : ∀ x ∈ tl, x < 2 ^ 32 := fun x hx =>
      hpmem x (by rw [hcons]; exact List.mem_cons_of_mem _ hx)
    have htlval : valBE (2 ^ 32) tl < (2 ^ 32) ^ k := by
      rw [← htllen]; exact valBE_lt _ _ htlmem
    have hsplit : valBE (2 ^ 32) p.2 = h * (2 ^ 32) ^ k + valBE (2 ^ 32) tl := by
      rw [hcons, valBE_cons, htllen]
    have hcap : 2 ^ (8 * binsz) = 2 ^ (8 * (binsz % 4)) * (2 ^ 32) ^ k := by
      rw [← pow_mul, ← pow_add]
      congr 1
      omega
    rw [hhead, land_zeromask_eq_zero_iff binsz hbl h hh32, hcap]
    constructor
    · rintro ⟨h0, hhlt⟩
      rw [h0, Nat.zero_mul, Nat.add_zero] at hval
      rw [← hval, hsplit]
      calc h * (2 ^ 32) ^ k + valBE (2 ^ 32) tl
          < h * (2 ^ 32) ^ k + (2 ^ 32) ^ k := by omega
        _ = (h + 1) * (2 ^ 32) ^ k := by ring
        _ ≤ 2 ^ (8 * (binsz % 4)) * (2 ^ 32) ^ k := Nat.mul_le_mul_right _ (by omega)
    · intro hfit
      have hcaple : 2 ^ (8 * (binsz % 4)) * (2 ^ 32) ^ k ≤ (2 ^ 32) ^ (k + 1) := by
        rw [pow_succ ((2 : Nat) ^ 32) k,
          Nat.mul_comm (((2 : Nat) ^ 32) ^ k) ((2 : Nat) ^ 32)]
        exact Nat.mul_le_mul_right _ (Nat.pow_le_pow_right (by norm_num) (by omega))
      have h0 : p.1 = 0 := by
        by_contra hne
        have h1 : 1 ≤ p.1 := Nat.one_le_iff_ne_zero.mpr hne
        have : (2 ^ 32) ^ (k + 1) ≤ 58 * valBE (2 ^ 32) outi + c := by
          calc (2 ^ 32) ^ (k + 1) = 1 * (2 ^ 32) ^ (k + 1) := by ring
            _ ≤ p.1 * (2 ^ 32) ^ (k + 1) := Nat.mul_le_mul_right _ h1
            _ ≤ valBE (2 ^ 32) p.2 + p.1 * (2 ^ 32) ^ (k + 1) := Nat.le_add_left _ _
            _ = 58 * valBE (2 ^ 32) outi + c := by rw [← hok]; exact hval
        omega
      refine ⟨h0, ?_⟩
      rw [h0, Nat.zero_mul, Nat.add_zero] at hval
      have hhb : h * (2 ^ 32) ^ k < 2 ^ (8 * (binsz % 4)) * (2 ^ 32) ^ k := by
        calc h * (2 ^ 32) ^ k ≤ valBE (2 ^ 32) p.2 := by rw [hsplit]; omega
          _ = 58 * valBE (2 ^ 32) outi + c := hval
          _ < 2 ^ (8 * (binsz % 4)) * (2 ^ 32) ^ k := hfit
      exact Nat.lt_of_mul_lt_mul_right hhb

/-! ### The decoder's digit loop -/

theorem b58strValAux_mono : ∀ ds : List Nat, ∀ a M : Nat,
    b58strValAux a ds = some M → a ≤ M := by
  intro ds
  induction ds with
  | nil =>
    intro a M h
    simp only [b58strValAux, Option.some.injEq] at h
    omega
  | cons ch rest ih =>
    intro a M h
    simp only [b58strValAux] at h
    cases hlook : b58lookup ch with
    | none => rw [hlook] at h; cases h
    | some d =>
      rw [hlook] at h
      have := ih (a * 58 + d) M h
      calc a = a * 1 := by ring
        _ ≤ a * 58 + d := by
            have : a * 1 ≤ a * 58 := Nat.mul_le_mul_left a (by norm_num)
            omega
        _ ≤ M := this

/-- Every character the loop succeeds past is a valid digit; an invalid byte
anywhere forces `return false`. -/
theorem b58tobin_loop_none_of_invalid (zeromask : Nat) :
    ∀ ds outi : List Nat, (∃ ch ∈ ds, b58lookup ch = none) →
      b58tobin_loop zeromask outi ds = none := by
  intro ds
  induction ds with
  | nil =>
    intro outi h
    obtain ⟨ch, hmem, -⟩ := h
    cases hmem
  | cons c0 rest ih =>
    intro outi h
    obtain ⟨ch, hmem, hnone⟩ := h
    cases hlook : b58lookup c0 with
    | none => simp only [b58tobin_loop, hlook]
    | some d =>
      have hchrest : ch ∈ rest := by
        rcases List.mem_cons.mp hmem with h | h
        · subst h; rw [hlook] at hnone; cases hnone
        · exact h
      simp only [b58tobin_loop, hlook]
      by_cases h1 : (b58tobin_mulStep d outi).1 ≠ 0
      · rw [if_pos h1]
      · rw [if_neg h1]
        by_cases h2 : (b58tobin_mulStep d outi).2.headD 0 &&& zeromask ≠ 0
        · rw [if_pos h2]
        · rw [if_neg h2]
          exact ih _ ⟨ch, hchrest, hnone⟩

/-- Successful run of the digit loop: if the accumulated value of the digits
fits in `binsz` bytes, all checks pass and the chunks afterwards hold exactly
that value. -/
theorem b58tobin_loop_some (binsz : Nat) (hb : 0 < binsz) :
    ∀ ds outi : List Nat, ∀ M Mf : Nat,
      b58strValAux M ds = some Mf →
      valBE (2 ^ 32) outi = M →
      outi.length = (binsz + 4 - 1) / 4 →
      (∀ x ∈ outi, x < 2 ^ 32) →
      (binsz % 4 ≠ 0 → outi.headD 0 < 2 ^ (8 * (binsz % 4))) →
      Mf < 2 ^ (8 * binsz) →
      ∃ outi', b58tobin_loop (b58tobin_zeromask binsz) outi ds = some outi'
        ∧ valBE (2 ^ 32) outi' = Mf
        ∧ outi'.length = (binsz + 4 - 1) / 4
        ∧ (∀ x ∈ outi', x < 2 ^ 32)
        ∧ (binsz % 4 ≠ 0 → outi'.headD 0 < 2 ^ (8 * (binsz % 4))) := by
  intro ds
  induction ds with
  | nil =>
    intro outi M Mf hv hval hlen hmem hhead hfit
    simp only [b58strValAux, Option.some.injEq] at hv
    subst hv
    exact ⟨outi, rfl, hval, hlen, hmem, hhead⟩
  | cons ch rest ih =>
    intro outi M Mf hv hval hlen hmem hhead hfit
    simp only [b58strValAux] at hv
    cases hlook : b58lookup ch with
    | none => rw [hlook] at hv; cases hv
    | some c =>
      rw [hlook] at hv
      have hM1 : M * 58 + c ≤ Mf := b58strValAux_mono rest _ _ hv
      have hstep : (b58tobin_mulStep c outi).1 = 0
          ∧ (b58tobin_mulStep c outi).2.headD 0 &&& b58tobin_zeromask binsz = 0 := by
        apply (b58tobin_step_iff binsz hb outi hlen hmem c).mpr
        rw [hval]
        calc 58 * M + c = M * 58 + c := by ring
          _ ≤ Mf := hM1
          _ < 2 ^ (8 * binsz) := hfit
      have hnewval : valBE (2 ^ 32) (b58tobin_mulStep c outi).2 = M * 58 + c := by
        have hmv := b58tobin_mulStep_val c outi
        rw [hstep.1, Nat.zero_mul, Nat.add_zero] at hmv
        rw [hmv, hval]; ring
      have hnewhead : binsz % 4 ≠ 0 →
          (b58tobin_mulStep c outi).2.headD 0 < 2 ^ (8 * (binsz % 4)) := by
        intro hbl
        have hh32 : (b58tobin_mulStep c outi).2.headD 0 < 2 ^ 32 := by
          cases hp2 : (b58tobin_mulStep c outi).2 with
          | nil => simp
          | cons hh ttl =>
            have := b58tobin_mulStep_mem c outi hh (by rw [hp2]; exact List.mem_cons_self _ _)
            simpa using this
        exact (land_zeromask_eq_zero_iff binsz hbl _ hh32).mp hstep.2
      obtain ⟨outi', hloop, hv', hlen', hmem', hhead'⟩ :=
        ih (b58tobin_mulStep c outi).2 (M * 58 + c) Mf hv hnewval
          (by rw [b58tobin_mulStep_len, hlen]) (b58tobin_mulStep_mem c outi) hnewhead hfit
      refine ⟨outi', ?_, hv', hlen', hmem', hhead'⟩
      simp only [b58tobin_loop, hlook]
      rw [if_neg (fun hcon => hcon hstep.1), if_neg (fun hcon => hcon hstep.2)]
      exact hloop

/-- If the digits are all valid but their value does not fit in `binsz` bytes,
the loop fails. -/
theorem b58tobin_loop_none_of_big (binsz : Nat) (hb : 0 < binsz) :
    ∀ ds outi : List Nat, ∀ M Mf : Nat,
      b58strValAux M ds = some Mf →
      valBE (2 ^ 32) outi = M →
      outi.length = (binsz + 4 - 1) / 4 →
      (∀ x ∈ outi, x < 2 ^ 32) →
      M < 2 ^ (8 * binsz) →
      2 ^ (8 * binsz) ≤ Mf →
      b58tobin_loop (b58tobin_zeromask binsz) outi ds = none := by
  intro ds
  induction ds with
  | nil =>
    intro outi M Mf hv hval hlen hmem hMlt hMf
    simp only [b58strValAux, Option.some.injEq] at hv
    omega
  | cons ch rest ih =>
    intro outi M Mf hv hval hlen hmem hMlt hMf
    simp only [b58strValAux] at hv
    cases hlook : b58lookup ch with
    | none => simp only [b58tobin_loop, hlook]
    | some c =>
      rw [hlook] at hv
      simp only [b58tobin_loop, hlook]
      by_cases hfit1 : M * 58 + c < 2 ^ (8 * binsz)
      · have hstep : (b58tobin_mulStep c outi).1 = 0
            ∧ (b58tobin_mulStep c outi).2.headD 0 &&& b58tobin_zeromask binsz = 0 := by
          apply (b58tobin_step_iff binsz hb outi hlen hmem c).mpr
          rw [hval]
          calc 58 * M + c = M * 58 + c := by ring
            _ < 2 ^ (8 * binsz) := hfit1
        have hnewval : valBE (2 ^ 32) (b58tobin_mulStep c outi).2 = M * 58 + c := by
          have hmv := b58tobin_mulStep_val c outi
          rw [hstep.1, Nat.zero_mul, Nat.add_zero] at hmv
          rw [hmv, hval]; ring
        rw [if_neg (fun hcon => hcon hstep.1), if_neg (fun hcon => hcon hstep.2)]
        exact ih (b58tobin_mulStep c outi).2 (M * 58 + c) Mf hv hnewval
          (by rw [b58tobin_mulStep_len, hlen]) (b58tobin_mulStep_mem c outi) hfit1 hMf
      · have hbad : ¬((b58tobin_mulStep c outi).1 = 0
            ∧ (b58tobin_mulStep c outi).2.headD 0 &&& b58tobin_zeromask binsz = 0) := by
          intro hcon
          have := (b58tobin_step_iff binsz hb outi hlen hmem c).mp hcon
          rw [hval] at this
          omega
        by_cases h1 : (b58tobin_mulStep c outi).1 ≠ 0
        · rw [if_pos h1]
        · rw [if_neg h1]
          have h0 : (b58tobin_mulStep c outi).1 = 0 := not_not.mp h1
          have h2 : (b58tobin_mulStep c outi).2.headD 0 &&& b58tobin_zeromask binsz ≠ 0 :=
            fun hcon => hbad ⟨h0, hcon⟩
          rw [if_pos h2]

/-! ### Big-endian byte serialization -/

theorem natToBytesBE_length (k x : Nat) : (natToBytesBE k x).length = k := by
  simp [natToBytesBE]

theorem natToBytesBE_zero (k : Nat) : natToBytesBE k 0 = List.replicate k 0 := by
  apply List.eq_replicate_iff.mpr
  constructor
  · exact natToBytesBE_length k 0
  · intro b hb
    simp only [natToBytesBE, List.mem_map] at hb
    obtain ⟨i, -, hi⟩ := hb
    simp [← hi, Nat.zero_div]

/-- The low `k` bytes only depend on `x` modulo `2 ^ (8 * k)`. -/
theorem natToBytesBE_mod (k x : Nat) :
    natToBytesBE k (x % 2 ^ (8 * k)) = natToBytesBE k x := by
  unfold natToBytesBE
  apply List.map_congr_left
  intro i hi
  have hik : i < k := List.mem_range.mp (List.mem_reverse.mp hi)
  have hsplit : 2 ^ (8 * k) = 2 ^ (8 * i) * 2 ^ (8 * (k - i)) := by
    rw [← pow_add]
    congr 1
    omega
  rw [hsplit, Nat.mod_mul_right_div_self]
  have hdvd : (256 : Nat) ∣ 2 ^ (8 * (k - i)) := by
    have h256 : (256 : Nat) = 2 ^ 8 := by norm_num
    rw [h256]
    exact pow_dvd_pow 2 (by omega)
  exact Nat.mod_mod_of_dvd _ hdvd

/-- Splitting a big-endian byte string: high `a` bytes, then low `b` bytes. -/
theorem natToBytesBE_add (a b x : Nat) :
    natToBytesBE (a + b) x = natToBytesBE a (x / 2 ^ (8 * b)) ++ natToBytesBE b x := by
  unfold natToBytesBE
  rw [Nat.add_comm a b, List.range_add, List.reverse_append, List.map_append, List.map_reverse,
    List.map_map, ← List.map_reverse]
  congr 1
  apply List.map_congr_left
  intro i _
  show x / 2 ^ (8 * (b + i)) % 256 = x / 2 ^ (8 * b) / 2 ^ (8 * i) % 256
  rw [Nat.div_div_eq_div_mul, ← pow_add]
  congr 2
  ring

/-- Concatenated four-byte serializations of the chunks are the byte string of
the combined value. -/
theorem natToBytesBE_chunks (l : List Nat) (h : ∀ x ∈ l, x < 2 ^ 32) :
    (l.map (natToBytesBE 4)).flatten = natToBytesBE (4 * l.length) (valBE (2 ^ 32) l) := by
  induction l with
  | nil => rfl
  | cons d rest ih =>
    have hrest : ∀ x ∈ rest, x < 2 ^ 32 := fun x hx => h x (List.mem_cons_of_mem d hx)
    have hvr : valBE (2 ^ 32) rest < (2 ^ 32) ^ rest.length := valBE_lt _ _ hrest
    have hlen : 4 * (d :: rest).length = 4 + 4 * rest.length := by
      simp [List.length_cons]; ring
    have hpow : (2 : Nat) ^ (8 * (4 * rest.length)) = (2 ^ 32) ^ rest.length := by
      rw [← pow_mul]
      congr 1
      ring
    have hdiv : valBE (2 ^ 32) (d :: rest) / 2 ^ (8 * (4 * rest.length)) = d := by
      rw [hpow, valBE_cons, Nat.add_comm,
        Nat.add_mul_div_right _ _ (Nat.pos_pow_of_pos _ (by norm_num)),
        Nat.div_eq_of_lt hvr, Nat.zero_add]
    have hmod2 : natToBytesBE (4 * rest.length) (valBE (2 ^ 32) (d :: rest))
        = natToBytesBE (4 * rest.length) (valBE (2 ^ 32) rest) := by
      rw [← natToBytesBE_mod (4 * rest.length) (valBE (2 ^ 32) (d :: rest)), valBE_cons, hpow,
        Nat.add_comm, Nat.add_mul_mod_self_right, Nat.mod_eq_of_lt hvr]
    rw [List.map_cons, List.flatten_cons, ih hrest, hlen, natToBytesBE_add, hdiv, hmod2]

/-- The serialization loops write exactly the `binsz` big-endian bytes of the
chunk value. -/
theorem b58tobin_serialize_eq (binsz : Nat) (hb : 0 < binsz) (outi : List Nat)
    (hlen : outi.length = (binsz + 4 - 1) / 4) (hmem : ∀ x ∈ outi, x < 2 ^ 32) :
    b58tobin_serialize (binsz % 4) outi = natToBytesBE binsz (valBE (2 ^ 32) outi) := by
  obtain ⟨h, tl, hcons⟩ : ∃ h tl, outi = h :: tl := by
    rcases houti : outi with _ | ⟨h, tl⟩
    · rw [houti] at hlen; simp at hlen; omega
    · exact ⟨h, tl, rfl⟩
  subst hcons
  have htlmem : ∀ x ∈ tl, x < 2 ^ 32 := fun x hx => hmem x (List.mem_cons_of_mem h hx)
  have hvtl : valBE (2 ^ 32) tl < (2 ^ 32) ^ tl.length := valBE_lt _ _ htlmem
  have hpow : (2 : Nat) ^ (8 * (4 * tl.length)) = (2 ^ 32) ^ tl.length := by
    rw [← pow_mul]; congr 1; ring
  have hdiv : valBE (2 ^ 32) (h :: tl) / 2 ^ (8 * (4 * tl.length)) = h := by
    rw [hpow, valBE_cons, Nat.add_comm,
      Nat.add_mul_div_right _ _ (Nat.pos_pow_of_pos _ (by norm_num)),
      Nat.div_eq_of_lt hvtl, Nat.zero_add]
  have hmod2 : natToBytesBE (4 * tl.length) (valBE (2 ^ 32) (h :: tl))
      = natToBytesBE (4 * tl.length) (valBE (2 ^ 32) tl) := by
    rw [← natToBytesBE_mod (4 * tl.length) (valBE (2 ^ 32) (h :: tl)), valBE_cons, hpow,
      Nat.add_comm, Nat.add_mul_mod_self_right, Nat.mod_eq_of_lt hvtl]
  by_cases hbl : binsz % 4 = 0
  · have h4 : binsz = 4 + 4 * tl.length := by
      have := hlen; simp only [List.length_cons] at this; omega
    simp only [b58tobin_serialize]
    rw [if_neg (not_not_intro hbl), h4, natToBytesBE_add, hdiv, hmod2,
      natToBytesBE_chunks tl htlmem]
  · have h4 : binsz = binsz % 4 + 4 * tl.length := by
      have := hlen; simp only [List.length_cons] at this; omega
    simp only [b58tobin_serialize]
    rw [if_pos hbl]
    conv_rhs => rw [h4]
    rw [natToBytesBE_add, hdiv, hmod2, natToBytesBE_chunks tl htlmem]

/-- Serializing the value of a byte string gives back the byte string. -/
theorem natToBytesBE_valBE (l : List Nat) (h : ∀ x ∈ l, x < 256) :
    natToBytesBE l.length (valBE 256 l) = l := by
  induction l with
  | nil => rfl
  | cons x rest ih =>
    have hrest : ∀ y ∈ rest, y < 256 := fun y hy => h y (List.mem_cons_of_mem x hy)
    have hx : x < 256 := h x (List.mem_cons_self x rest)
    have hvr : valBE 256 rest < 256 ^ rest.length := valBE_lt _ _ hrest
    have hpow : (256 : Nat) ^ rest.length = 2 ^ (8 * rest.length) := by
      have h256 : (256 : Nat) = 2 ^ 8 := by norm_num
      rw [h256, ← pow_mul]
    have hlen : (x :: rest).length = 1 + rest.length := by simp [Nat.add_comm]
    have hone : ∀ y : Nat, y < 256 → natToBytesBE 1 y = [y] := by
      intro y hy
      show [y / 2 ^ (8 * 0) % 256] = [y]
      norm_num [Nat.mod_eq_of_lt hy]
    have h1 : natToBytesBE 1 (valBE 256 (x :: rest) / 2 ^ (8 * rest.length)) = [x] := by
      rw [valBE_cons, ← hpow,
        Nat.add_comm (x * 256 ^ rest.length) (valBE 256 rest),
        Nat.add_mul_div_right _ _ (Nat.pos_pow_of_pos _ (by norm_num)),
        Nat.div_eq_of_lt hvr, Nat.zero_add]
      exact hone x hx
    have h2 : natToBytesBE rest.length (valBE 256 (x :: rest)) = rest := by
      rw [← natToBytesBE_mod rest.length (valBE 256 (x :: rest)), valBE_cons, ← hpow,
        Nat.add_comm (x * 256 ^ rest.length) (valBE 256 rest),
        Nat.add_mul_mod_self_right, Nat.mod_eq_of_lt hvr]
      exact ih hrest
    rw [hlen, natToBytesBE_add, h1, h2]
    rfl

/-! ### The canonical-length scan -/

theorem b58tobin_count_replicate (zc : Nat) :
    ∀ z i binszp : Nat, b58tobin_count zc i binszp (List.replicate z 0)
      = some (binszp - z + zc) := by
  intro z
  induction z with
  | zero => intro i binszp; simp [b58tobin_count]
  | succ z' ih =>
    intro i binszp
    rw [List.replicate_succ]
    show b58tobin_count zc (i + 1) (binszp - 1) (List.replicate z' 0) = _
    rw [ih]
    congr 1
    omega

theorem b58tobin_count_nonzero (zc : Nat) (x : Nat) (hx : x ≠ 0) (rest : List Nat) :
    ∀ z i binszp : Nat, b58tobin_count zc i binszp (List.replicate z 0 ++ x :: rest)
      = if zc > i + z then none else some (binszp - z + zc) := by
  intro z
  induction z with
  | zero =>
    intro i binszp
    show b58tobin_count zc i binszp (x :: rest) = _
    simp only [b58tobin_count, if_pos hx]
    rcases Nat.lt_or_ge i zc with h | h
    · rw [if_pos h, if_pos (by omega)]
    · rw [if_neg (by omega), if_neg (by omega)]
      simp
  | succ z' ih =>
    intro i binszp
    rw [List.replicate_succ, List.cons_append]
    show b58tobin_count zc (i + 1) (binszp - 1) (List.replicate z' 0 ++ x :: rest) = _
    rw [ih]
    rcases Nat.lt_or_ge (i + 1 + z') zc with h | h
    · rw [if_pos (by omega), if_pos (by omega)]
    · rw [if_neg (by omega), if_neg (by omega)]
      congr 1
      omega

/-! ### Splitting a list at its zero prefix -/

theorem takeWhile_eq_replicate_self (v : Nat) (l : List Nat) :
    l.takeWhile (· == v) = List.replicate (l.takeWhile (· == v)).length v := by
  apply List.eq_replicate_iff.mpr
  refine ⟨rfl, ?_⟩
  intro b hb
  have := List.mem_takeWhile_imp hb
  simpa using this

theorem length_takeWhile_le' (p : Nat → Bool) (l : List Nat) :
    (l.takeWhile p).length ≤ l.length := by
  induction l with
  | nil => simp
  | cons a rest ih =>
    by_cases h : p a
    · rw [List.takeWhile_cons_of_pos h]
      simpa using ih
    · rw [List.takeWhile_cons_of_neg h]
      simp

theorem drop_length_takeWhile (p : Nat → Bool) (l : List Nat) :
    l.drop (l.takeWhile p).length = l.dropWhile p := by
  induction l with
  | nil => rfl
  | cons a rest ih =>
    by_cases h : p a
    · rw [List.takeWhile_cons_of_pos h, List.dropWhile_cons_of_pos h, List.length_cons,
        List.drop_succ_cons, ih]
    · rw [List.takeWhile_cons_of_neg h, List.dropWhile_cons_of_neg h, List.length_nil,
        List.drop_zero]

theorem split_at_zero_run (l : List Nat) :
    l = List.replicate (l.takeWhile (· == 0)).length 0 ++ l.dropWhile (· == 0) := by
  conv_lhs => rw [← List.takeWhile_append_dropWhile (p := (· == 0)) (l := l)]
  rw [← takeWhile_eq_replicate_self]

theorem dropWhile_eq_cons_head_ne (v : Nat) (l : List Nat) (y : Nat) (r : List Nat)
    (h : l.dropWhile (· == v) = y :: r) : y ≠ v := by
  induction l with
  | nil => cases h
  | cons a rest ih =>
    by_cases ha : a = v
    · subst ha
      rw [List.dropWhile_cons_of_pos (by simp)] at h
      exact ih h
    · rw [List.dropWhile_cons_of_neg (by simpa using ha)] at h
      obtain ⟨rfl, rfl⟩ := List.cons.inj h
      exact ha

/-! ### Alphabet and lookup facts -/

theorem b58lookup_alph : ∀ d : Nat, d < 58 → b58lookup (b58ord.getD d 0) = some d := by decide

theorem b58ord_ne_one : ∀ d : Nat, d < 58 → d ≠ 0 → b58ord.getD d 0 ≠ 49 := by decide

theorem takeWhile_replicate_append (p : Nat → Bool) (v : Nat) (hv : p v = true)
    (rest : List Nat) (hr : ∀ y r', rest = y :: r' → p y = false) (N : Nat) :
    ((List.replicate N v ++ rest).takeWhile p = List.replicate N v)
      ∧ ((List.replicate N v ++ rest).dropWhile p = rest) := by
  induction N with
  | zero =>
    simp only [List.replicate, List.nil_append]
    cases rest with
    | nil => exact ⟨rfl, rfl⟩
    | cons y r' =>
      have hy := hr y r' rfl
      rw [List.takeWhile_cons_of_neg (by simp [hy]), List.dropWhile_cons_of_neg (by simp [hy])]
      exact ⟨rfl, rfl⟩
  | succ N' ih =>
    rw [List.replicate_succ, List.cons_append, List.takeWhile_cons_of_pos hv,
      List.dropWhile_cons_of_pos hv]
    exact ⟨by rw [ih.1], ih.2⟩

theorem b58strValAux_map_alph : ∀ digits : List Nat, (∀ d ∈ digits, d < 58) → ∀ a : Nat,
    b58strValAux a (digits.map (fun d => b58ord.getD d 0))
      = some (digits.foldl (fun x d => x * 58 + d) a) := by
  intro digits
  induction digits with
  | nil => intro _ a; rfl
  | cons d rest ih =>
    intro h a
    have hd : d < 58 := h d (List.mem_cons_self d rest)
    simp only [List.map_cons, b58strValAux, b58lookup_alph d hd, List.foldl_cons]
    exact ih (fun x hx => h x (List.mem_cons_of_mem d hx)) (a * 58 + d)

theorem b58strVal_replicate_ones (N : Nat) (rest : List Nat) :
    b58strVal (List.replicate N 49 ++ rest) = b58strVal rest := by
  induction N with
  | zero => rfl
  | succ N' ih =>
    rw [List.replicate_succ, List.cons_append, ← ih]
    rfl

theorem b58strVal_dropWhile_ones (s : List Nat) :
    b58strVal (s.dropWhile (· == 49)) = b58strVal s := by
  induction s with
  | nil => rfl
  | cons c rest ih =>
    by_cases hc : c = 49
    · subst hc
      rw [List.dropWhile_cons_of_pos (by simp), ih]
      rfl
    · rw [List.dropWhile_cons_of_neg (by simpa using hc)]

/-! ### Properties of the encoder's digit string -/

theorem b58enc_digits_mem (data : List Nat) : ∀ d ∈ b58enc_digits data, d < 58 := by
  intro d hd
  rw [b58enc_digits] at hd
  exact b58enc_buf_mem _ _ d ((List.dropWhile_sublist _).subset hd)

theorem b58enc_digits_head (data : List Nat) (y : Nat) (r : List Nat)
    (h : b58enc_digits data = y :: r) : y ≠ 0 := by
  rw [b58enc_digits] at h
  exact dropWhile_eq_cons_head_ne 0 _ y r h

theorem b58enc_digits_val (data : List Nat) (h : ∀ x ∈ data, x < 256) :
    valBE 58 (b58enc_digits data) = valBE 256 (data.drop (b58enc_zcount data)) := by
  rw [b58enc_digits, valBE_dropWhile_zero, b58enc_buf_val]
  apply Nat.mod_eq_of_lt
  calc valBE 256 (data.drop (b58enc_zcount data))
      < 256 ^ (data.drop (b58enc_zcount data)).length :=
        valBE_lt _ _ (fun x hx => h x (List.mem_of_mem_drop hx))
    _ = 256 ^ (data.length - b58enc_zcount data) := by rw [List.length_drop]
    _ ≤ 58 ^ b58enc_size data := by rw [b58enc_size]; exact pow58_size_bound _

/-! ### Top-level decoder theorems -/

/-- An out-of-alphabet byte anywhere in the input makes `b58tobin` fail. -/
theorem b58tobin_eq_none_of_invalid (b58 : List Nat) (binsz : Nat)
    (h : ∃ ch ∈ b58, b58lookup ch = none) : b58tobin b58 binsz = none := by
  have hbytes : b58tobin_bytes? b58 binsz = none := by
    rw [b58tobin_bytes?]
    by_cases hb : binsz = 0
    · rw [if_pos hb]
    · rw [if_neg hb]
      obtain ⟨ch, hmem, hnone⟩ := h
      have hch49 : ch ≠ 49 := by
        intro hcon
        subst hcon
        rw [show b58lookup 49 = some 0 from rfl] at hnone
        cases hnone
      have hmem' : ch ∈ b58.takeWhile (· == 49) ++ b58.dropWhile (· == 49) := by
        rw [List.takeWhile_append_dropWhile]
        exact hmem
      have hch : ch ∈ b58.dropWhile (· == 49) := by
        rcases List.mem_append.mp hmem' with h1 | h1
        · exact absurd (by simpa using List.mem_takeWhile_imp h1) hch49
        · exact h1
      rw [b58tobin_loop_none_of_invalid _ _ _ ⟨ch, hch, hnone⟩]
      rfl
  simp only [b58tobin, hbytes]

/-- A value too large for the output capacity makes `b58tobin` fail (this
covers `binsz = 0` as well, where the guard at the top fires). -/
theorem b58tobin_eq_none_of_big (b58 : List Nat) (binsz M : Nat)
    (hval : b58strVal b58 = some M) (hM : 2 ^ (8 * binsz) ≤ M) :
    b58tobin b58 binsz = none := by
  have hbytes : b58tobin_bytes? b58 binsz = none := by
    rw [b58tobin_bytes?]
    by_cases hb : binsz = 0
    · rw [if_pos hb]
    · rw [if_neg hb]
      have hds : b58strValAux 0 (b58.dropWhile (· == 49)) = some M := by
        show b58strVal (b58.dropWhile (· == 49)) = some M
        rw [b58strVal_dropWhile_ones]
        exact hval
      rw [b58tobin_loop_none_of_big binsz (Nat.pos_of_ne_zero hb) _ _ 0 M hds
        (valBE_replicate_zero _ _) (List.length_replicate _ _)
        (by intro x hx; rw [List.eq_of_mem_replicate hx]; norm_num)
        (Nat.pos_pow_of_pos _ (by norm_num)) hM]
      rfl
  simp only [b58tobin, hbytes]

/-- Successful digit processing: a valid string whose value fits yields the
big-endian bytes of that value. -/
theorem b58tobin_bytes?_some (b58 : List Nat) (binsz M : Nat) (hb : 0 < binsz)
    (hval : b58strVal b58 = some M) (hM : M < 2 ^ (8 * binsz)) :
    b58tobin_bytes? b58 binsz = some (natToBytesBE binsz M) := by
  have hds : b58strValAux 0 (b58.dropWhile (· == 49)) = some M := by
    show b58strVal (b58.dropWhile (· == 49)) = some M
    rw [b58strVal_dropWhile_ones]
    exact hval
  have hrepl_head : (List.replicate ((binsz + 4 - 1) / 4) 0).headD 0 = 0 := by
    cases h4 : (binsz + 4 - 1) / 4 with
    | zero => rfl
    | succ k => rw [List.replicate_succ]; rfl
  obtain ⟨outi', hloop, hv', hlen', hmem', -⟩ :=
    b58tobin_loop_some binsz hb (b58.dropWhile (· == 49))
      (List.replicate ((binsz + 4 - 1) / 4) 0) 0 M hds (valBE_replicate_zero _ _)
      (List.length_replicate _ _)
      (by intro x hx; rw [List.eq_of_mem_replicate hx]; norm_num)
      (by intro _; rw [hrepl_head]; exact Nat.pos_pow_of_pos _ (by norm_num)) hM
  rw [b58tobin_bytes?, if_neg (by omega)]
  rw [hloop]
  show some (b58tobin_serialize (binsz % 4) outi') = _
  rw [b58tobin_serialize_eq binsz hb outi' hlen' hmem', hv']

/-! ### The round trip -/

/-- The string built by `b58enc` starts with exactly `zcount` copies of `'1'`:
the first mapped digit, if any, is nonzero and therefore not `'1'`. -/
theorem b58enc_string_ones_count (data : List Nat) :
    ((List.replicate (b58enc_zcount data) 49
        ++ (b58enc_digits data).map (fun d => b58ord.getD d 0)).takeWhile (· == 49)).length
      = b58enc_zcount data := by
  have hdigmem := b58enc_digits_mem data
  have hr : ∀ y r', (b58enc_digits data).map (fun d => b58ord.getD d 0) = y :: r'
      → (y == 49) = false := by
    intro y r' hcons
    cases hdig : b58enc_digits data with
    | nil => rw [hdig] at hcons; cases hcons
    | cons d ds =>
      rw [hdig, List.map_cons] at hcons
      obtain ⟨rfl, -⟩ := List.cons.inj hcons
      have hd58 : d < 58 := hdigmem d (by rw [hdig]; exact List.mem_cons_self d ds)
      have hd0 : d ≠ 0 := b58enc_digits_head data d ds hdig
      simpa using b58ord_ne_one d hd58 hd0
  rw [(takeWhile_replicate_append (· == 49) 49 (by simp) _ hr _).1, List.length_replicate]

/-- Decoding the string produced by `b58enc` with capacity `data.length`
recovers `data` exactly (for nonempty byte input). -/
theorem b58tobin_b58enc_string (data : List Nat) (hne : data ≠ [])
    (hbytes : ∀ x ∈ data, x < 256) :
    b58tobin (List.replicate (b58enc_zcount data) 49
        ++ (b58enc_digits data).map (fun d => b58ord.getD d 0)) data.length
      = some (data, data.length) := by
  set z := b58enc_zcount data with hzdef
  set digits := b58enc_digits data with hdigdef
  set s := List.replicate z 49 ++ digits.map (fun d => b58ord.getD d 0) with hsdef
  set binsz := data.length with hbinszdef
  have hb : 0 < binsz := List.length_pos.mpr hne
  set rest0 := data.dropWhile (· == 0) with hrest0def
  have hz : z = (data.takeWhile (· == 0)).length := rfl
  have hsplit : data = List.replicate z 0 ++ rest0 := by
    rw [hz]
    exact split_at_zero_run data
  have hdrop : data.drop z = rest0 := by
    rw [hz]
    exact drop_length_takeWhile _ _
  have hzle : z ≤ binsz := by
    rw [hz]
    exact length_takeWhile_le' _ _
  have hrestlen : rest0.length = binsz - z := by
    rw [← hdrop, List.length_drop]
  have hrestmem : ∀ x ∈ rest0, x < 256 := by
    intro x hx
    exact hbytes x ((List.dropWhile_sublist _).subset hx)
  set N := valBE 256 rest0 with hNdef
  have hdigmem : ∀ d ∈ digits, d < 58 := b58enc_digits_mem data
  have hdigval : valBE 58 digits = N := by
    rw [hdigdef, b58enc_digits_val data hbytes, hdrop]
  have hsval : b58strVal s = some N := by
    rw [hsdef, b58strVal_replicate_ones, b58strVal,
      b58strValAux_map_alph digits hdigmem 0]
    have hfold : digits.foldl (fun x d => x * 58 + d) 0 = N := hdigval
    rw [hfold]
  have hNpow : N < 2 ^ (8 * rest0.length) := by
    have h1 : N < 256 ^ rest0.length := valBE_lt _ _ hrestmem
    have h2 : (256 : Nat) ^ rest0.length = 2 ^ (8 * rest0.length) := by
      rw [show (256 : Nat) = 2 ^ 8 by norm_num, ← pow_mul]
    omega
  have hNlt : N < 2 ^ (8 * binsz) := by
    have h2 : (2 : Nat) ^ (8 * rest0.length) ≤ 2 ^ (8 * binsz) :=
      Nat.pow_le_pow_right (by norm_num) (by omega)
    omega
  have hser : natToBytesBE binsz N = data := by
    have hlen : binsz = z + rest0.length := by omega
    rw [hlen, natToBytesBE_add, Nat.div_eq_of_lt hNpow, natToBytesBE_zero, hNdef,
      natToBytesBE_valBE rest0 hrestmem]
    exact hsplit.symm
  have hbytes? : b58tobin_bytes? s binsz = some data := by
    rw [b58tobin_bytes?_some s binsz N hb hsval hNlt, hser]
  -- the count of leading '1' characters in `s` is exactly `z`
  have htw : (s.takeWhile (· == 49)).length = z := by
    rw [hsdef, hdigdef, hzdef]
    exact b58enc_string_ones_count data
  -- the canonical-length scan returns `binsz`
  have hcount : b58tobin_count z 0 binsz data = some binsz := by
    cases hdig : digits with
    | nil =>
      have hN0 : N = 0 := by rw [← hdigval, hdig]; rfl
      have hrest0nil : rest0 = [] := by
        cases hr0 : rest0 with
        | nil => rfl
        | cons y r =>
          have hy : y ≠ 0 := dropWhile_eq_cons_head_ne 0 data y r (by rw [← hrest0def, hr0])
          have : 0 < y * 256 ^ r.length :=
            Nat.mul_pos (Nat.pos_of_ne_zero hy) (Nat.pos_pow_of_pos _ (by norm_num))
          have hNval : N = y * 256 ^ r.length + valBE 256 r := by
            rw [hNdef, hr0, valBE_cons]
          omega
      have hzbinsz : z = binsz := by
        have := hrestlen
        rw [hrest0nil] at this
        simp at this
        omega
      have hdata : data = List.replicate binsz 0 := by
        rw [hsplit, hrest0nil, List.append_nil, hzbinsz]
      rw [hdata, b58tobin_count_replicate]
      congr 1
      omega
    | cons d ds =>
      have hNpos : 0 < N := by
        have hd0 : d ≠ 0 := b58enc_digits_head data d ds (by rw [← hdigdef, hdig])
        have h1 : 0 < d * 58 ^ ds.length :=
          Nat.mul_pos (Nat.pos_of_ne_zero hd0) (Nat.pos_pow_of_pos _ (by norm_num))
        have h2 : N = d * 58 ^ ds.length + valBE 58 ds := by
          rw [← hdigval, hdig, valBE_cons]
        omega
      obtain ⟨y, r, hr0⟩ : ∃ y r, rest0 = y :: r := by
        cases hr0 : rest0 with
        | nil =>
          rw [hNdef, hr0] at hNpos
          cases hNpos
        | cons y r => exact ⟨y, r, rfl⟩
      have hy : y ≠ 0 := dropWhile_eq_cons_head_ne 0 data y r (by rw [← hrest0def, hr0])
      rw [hsplit, hr0, b58tobin_count_nonzero z y hy r]
      rw [if_neg (by omega)]
      congr 1
      omega
  simp only [b58tobin, hbytes?, htw, hcount]

set_option maxRecDepth 100000 in
/-- A byte below 256 that is not an alphabet character is rejected by the
digit lookup. -/
theorem b58lookup_none_of_not_mem :
    ∀ ch : Nat, ch < 256 → ch ∉ b58ord → b58lookup ch = none := by decide

/-! ## Claim theorems -/

/-- C1 (counterexample): the claim fails for the empty byte sequence.
Encoding `[]` succeeds and produces the empty string, but decoding the empty
string with an output capacity equal to `[].length = 0` fails: `b58tobin`
rejects `binsz = 0` immediately. -/
theorem C1_counterexample :
    (b58enc 1 ([] : List Nat)).1 = true ∧ (b58enc 1 ([] : List Nat)).2.2 = ([] : List Nat)
      ∧ b58tobin ([] : List Nat) 0 = none := by decide

/-- C1 (amended): for every NONEMPTY byte sequence `b`, encoding `b` with
`b58enc` into a sufficiently large buffer succeeds, and decoding the resulting
string with `b58tobin` using an output capacity equal to the length of `b`
succeeds and yields exactly `b` (all `b.length` buffer bytes are `b` and the
reported byte count is `b.length`). -/
theorem C1_roundtrip (b : List Nat) (hne : b ≠ []) (hb : ∀ x ∈ b, x < 256) :
    (b58enc (b58enc_len b + 1) b).1 = true
      ∧ b58tobin (b58enc (b58enc_len b + 1) b).2.2 b.length = some (b, b.length) := by
  have henc : b58enc (b58enc_len b + 1) b
      = (true, b58enc_len b + 1,
          List.replicate (b58enc_zcount b) 49
            ++ (b58enc_digits b).map (fun d => b58ord.getD d 0)) := by
    unfold b58enc
    rw [if_neg (by omega)]
  rw [henc]
  exact ⟨rfl, b58tobin_b58enc_string b hne hb⟩

/-- C1 (witness): the round trip at the concrete input `[0, 255]`. -/
theorem C1_roundtrip_witness :
    (b58enc (b58enc_len [0, 255] + 1) [0, 255]).1 = true
      ∧ b58tobin (b58enc (b58enc_len [0, 255] + 1) [0, 255]).2.2 ([0, 255] : List Nat).length
        = some ([0, 255], ([0, 255] : List Nat).length) :=
  C1_roundtrip [0, 255] (by decide) (by decide)

/-- C2: any input string containing a byte outside the 58-character alphabet
(including every byte with the high bit set, which is never in the alphabet)
makes `b58tobin` return false, producing no decoded result. -/
theorem C2_invalid_char (s : List Nat) (binsz : Nat)
    (h : ∃ ch ∈ s, ch < 256 ∧ ch ∉ b58ord) : b58tobin s binsz = none := by
  obtain ⟨ch, hmem, h256, hnot⟩ := h
  exact b58tobin_eq_none_of_invalid s binsz
    ⟨ch, hmem, b58lookup_none_of_not_mem ch h256 hnot⟩

/-- C2 (witness): decoding `"0"` (byte 48, not in the alphabet) fails. -/
theorem C2_invalid_char_witness :
    (∃ ch ∈ [48], ch < 256 ∧ ch ∉ b58ord) ∧ b58tobin [48] 1 = none :=
  ⟨by decide, C2_invalid_char [48] 1 (by decide)⟩

/-- C3: `b58enc` fails iff the supplied capacity is at most the produced string
length (i.e. too small for string plus terminator); on failure it reports
exactly the string length plus one, and retrying with exactly the reported
size succeeds; on success the produced string length is `b58enc_len`.  There
is no other failure mode. -/
theorem C3_capacity_negotiation (b58sz : Nat) (data : List Nat) :
    ((b58enc b58sz data).1 = false ↔ b58sz ≤ b58enc_len data)
      ∧ ((b58enc b58sz data).1 = false →
          (b58enc b58sz data).2.1 = b58enc_len data + 1
            ∧ (b58enc ((b58enc b58sz data).2.1) data).1 = true)
      ∧ ((b58enc b58sz data).1 = true → (b58enc b58sz data).2.2.length = b58enc_len data) := by
  have hretry : (b58enc (b58enc_len data + 1) data).1 = true := by
    unfold b58enc
    rw [if_neg (by omega)]
  by_cases h : b58sz ≤ b58enc_len data
  · have he : b58enc b58sz data = (false, b58enc_len data + 1, []) := by
      unfold b58enc
      rw [if_pos h]
    rw [he]
    refine ⟨by simpa using h, ?_, ?_⟩
    · intro _
      exact ⟨rfl, hretry⟩
    · intro hcon
      simp at hcon
  · have he : b58enc b58sz data = (true, b58enc_len data + 1,
        List.replicate (b58enc_zcount data) 49
          ++ (b58enc_digits data).map (fun d => b58ord.getD d 0)) := by
      unfold b58enc
      rw [if_neg h]
    rw [he]
    refine ⟨by simp [h], ?_, ?_⟩
    · intro hcon
      simp at hcon
    · intro _
      simp [b58enc_len]

/-- C3 (witness): encoding `[0x00]` into a zero-capacity buffer fails,
reports size 2, and retrying with capacity 2 succeeds. -/
theorem C3_capacity_negotiation_witness :
    (b58enc 0 [0]).2.1 = b58enc_len [0] + 1 ∧ (b58enc ((b58enc 0 [0]).2.1) [0]).1 = true :=
  (C3_capacity_negotiation 0 [0]).2.1 (by decide)

/-- C4 (failing input): decoding five `'1'` characters with capacity 2
returns TRUE and stores `*binszp = 5 > 2`, violating the claim that a
successful `b58tobin` never reports more bytes than the supplied capacity
(the zero-prefix count is added back without being checked against `binsz`
when the buffer is all zero). -/
theorem C4_overlong_result : b58tobin [49, 49, 49, 49, 49] 2 = some ([0, 0], 5) := by decide

/-- C5: for input consisting of exactly `N` zero bytes followed by a nonzero
byte (and arbitrary further bytes), a successful `b58enc` produces a string
with exactly `N` leading `'1'` characters, and `b58tobin` on that string
reproduces the input, in particular its exactly `N` leading zero bytes. -/
theorem C5_leading_zero_preservation (N x : Nat) (r b : List Nat)
    (hbdef : b = List.replicate N 0 ++ x :: r) (hx : x ≠ 0) (hx256 : x < 256)
    (hr : ∀ y ∈ r, y < 256) :
    (b58enc (b58enc_len b + 1) b).1 = true
      ∧ ((b58enc (b58enc_len b + 1) b).2.2.takeWhile (· == 49)).length = N
      ∧ b58tobin (b58enc (b58enc_len b + 1) b).2.2 b.length = some (b, b.length) := by
  subst hbdef
  have hne : List.replicate N 0 ++ x :: r ≠ [] := by simp
  have hmem : ∀ v ∈ List.replicate N 0 ++ x :: r, v < 256 := by
    intro v hv
    rcases List.mem_append.mp hv with h1 | h1
    · rw [List.eq_of_mem_replicate h1]
      norm_num
    · rcases List.mem_cons.mp h1 with h2 | h2
      · subst h2
        exact hx256
      · exact hr v h2
  have hzc : b58enc_zcount (List.replicate N 0 ++ x :: r) = N := by
    rw [b58enc_zcount,
      (takeWhile_replicate_append (· == 0) 0 (by simp) (x :: r)
        (by intro y r' hcons; obtain ⟨rfl, -⟩ := List.cons.inj hcons; simpa using hx) N).1,
      List.length_replicate]
  have henc : b58enc (b58enc_len (List.replicate N 0 ++ x :: r) + 1)
        (List.replicate N 0 ++ x :: r)
      = (true, b58enc_len (List.replicate N 0 ++ x :: r) + 1,
          List.replicate (b58enc_zcount (List.replicate N 0 ++ x :: r)) 49
            ++ (b58enc_digits (List.replicate N 0 ++ x :: r)).map (fun d => b58ord.getD d 0)) := by
    unfold b58enc
    rw [if_neg (by omega)]
  rw [henc]
  refine ⟨rfl, ?_, b58tobin_b58enc_string _ hne hmem⟩
  show ((List.replicate (b58enc_zcount (List.replicate N 0 ++ x :: r)) 49
      ++ (b58enc_digits (List.replicate N 0 ++ x :: r)).map
        (fun d => b58ord.getD d 0)).takeWhile (· == 49)).length = N
  rw [b58enc_string_ones_count, hzc]

/-- C5 (witness): the concrete input `[0, 0, 1]` encodes to `"112"` with
exactly two leading `'1'`s and decodes back. -/
theorem C5_leading_zero_preservation_witness :
    (b58enc (b58enc_len [0, 0, 1] + 1) [0, 0, 1]).1 = true
      ∧ ((b58enc (b58enc_len [0, 0, 1] + 1) [0, 0, 1]).2.2.takeWhile (· == 49)).length = 2
      ∧ b58tobin (b58enc (b58enc_len [0, 0, 1] + 1) [0, 0, 1]).2.2 ([0, 0, 1] : List Nat).length
        = some ([0, 0, 1], ([0, 0, 1] : List Nat).length) :=
  C5_leading_zero_preservation 2 1 [] [0, 0, 1] (by decide) (by decide) (by decide) (by decide)

/-- C6: a Base58 string whose numeric magnitude does not fit in `binsz` bytes
is rejected: the carry check and the `zeromask` check in the
multiply-accumulate loop make `b58tobin` return false. -/
theorem C6_magnitude_overflow (s : List Nat) (binsz M : Nat)
    (hval : b58strVal s = some M) (hM : 2 ^ (8 * binsz) ≤ M) :
    b58tobin s binsz = none :=
  b58tobin_eq_none_of_big s binsz M hval hM

/-- C6 (witness): `"92"` has value `8 * 58 + 1 = 465 ≥ 256` and fails to
decode into one byte. -/
theorem C6_magnitude_overflow_witness :
    b58strVal [57, 50] = some 465 ∧ b58tobin [57, 50] 1 = none :=
  ⟨by decide, C6_magnitude_overflow [57, 50] 1 465 (by decide) (by decide)⟩

/-- C7: if the serialized decoded bytes have their first nonzero byte at an
index strictly less than `zerocount` (the number of leading `'1'` characters),
`b58tobin` returns false. -/
theorem C7_inconsistent_zero_run (s : List Nat) (binsz : Nat) (bytes : List Nat)
    (hbytes : b58tobin_bytes? s binsz = some bytes)
    (hnz : bytes.dropWhile (· == 0) ≠ [])
    (hlt : (bytes.takeWhile (· == 0)).length < (s.takeWhile (· == 49)).length) :
    b58tobin s binsz = none := by
  obtain ⟨y, r, hyr⟩ : ∃ y r, bytes.dropWhile (· == 0) = y :: r := by
    cases h : bytes.dropWhile (· == 0) with
    | nil => exact absurd h hnz
    | cons y r => exact ⟨y, r, rfl⟩
  have hy : y ≠ 0 := dropWhile_eq_cons_head_ne 0 bytes y r hyr
  have hbeq : bytes = List.replicate ((bytes.takeWhile (· == 0)).length) 0 ++ y :: r := by
    conv_lhs => rw [split_at_zero_run bytes]
    rw [hyr]
  simp only [b58tobin, hbytes]
  conv_lhs => rw [hbeq]
  rw [b58tobin_count_nonzero _ y hy r, if_pos (by omega)]

/-- C7 (witness): `"12"` claims one leading zero byte but decodes (into one
byte) to `[1]`, whose first nonzero byte is at index 0; the decode fails. -/
theorem C7_inconsistent_zero_run_witness :
    b58tobin_bytes? [49, 50] 1 = some [1] ∧ b58tobin [49, 50] 1 = none :=
  ⟨by decide, C7_inconsistent_zero_run [49, 50] 1 [1] (by decide) (by decide) (by decide)⟩

/-- C8: the concrete vectors: `encode([]) = ""`, `encode([0x00]) = "1"`,
`encode([0,0,1]) = "112"`, `decode("")` succeeds with zero output bytes
(capacity 1), and `encode("Hello World!" bytes) = "2NEpo7TZRRrLZSi2U"`
(byte values of the Base58 characters). -/
theorem C8_concrete_vectors :
    b58enc 1 [] = (true, 1, [])
      ∧ b58enc 2 [0] = (true, 2, [49])
      ∧ b58enc 4 [0, 0, 1] = (true, 4, [49, 49, 50])
      ∧ b58tobin [] 1 = some ([0], 0)
      ∧ b58enc 18 [72, 101, 108, 108, 111, 32, 87, 111, 114, 108, 100, 33]
          = (true, 18, [50, 78, 69, 112, 111, 55, 84, 90, 82, 82, 114, 76, 90, 83, 105, 50, 85]) := by
  decide

set_option maxRecDepth 100000 in
/-- C9: the digit-lookup is the exact inverse of the alphabet: looking up the
alphabet character at position `i` (through the raw table and through the
decoder's lookup) yields `i`, and a byte value 0-255 is rejected iff it is not
an alphabet character. -/
theorem C9_table_inverse :
    (∀ i : Fin 58, b58digits_map.getD (b58ord.getD i.1 0) (-1) = (i.1 : Int))
      ∧ (∀ i : Fin 58, b58lookup (b58ord.getD i.1 0) = some i.1)
      ∧ (∀ b : Fin 256, b58lookup b.1 = none ↔ b.1 ∉ b58ord) := by decide

/-- C10 (counterexample): `base58_decode` of the empty string with `datalen = 1`
returns 0 although the underlying `b58tobin` call SUCCEEDS (with zero decoded
bytes), so a return of 0 does not always indicate a failed decode. -/
theorem C10_counterexample :
    (base58_decode [] 1).1 = 0 ∧ b58tobin [] 1 = some ([0], 0) := by decide

/-- C10 (amended): `base58_decode` returns 0 iff the underlying `b58tobin`
fails or succeeds with a zero-length result. -/
theorem C10_zero_iff (str : List Nat) (datalen : Nat) :
    (base58_decode str datalen).1 = 0
      ↔ (b58tobin str datalen = none ∨ ∃ bytes, b58tobin str datalen = some (bytes, 0)) := by
  cases h : b58tobin str datalen with
  | none => simp [base58_decode, h]
  | some p =>
    obtain ⟨bytes, res⟩ := p
    simp only [base58_decode, h]
    constructor
    · intro h0
      have h0' : res = 0 := h0
      exact Or.inr ⟨bytes, by rw [h0']⟩
    · rintro (hcon | ⟨bytes', hsome⟩)
      · exact absurd hcon (Option.some_ne_none _)
      · have h2 : res = 0 := by
          have hpair := Option.some.inj hsome
          simpa using congrArg Prod.snd hpair
        exact h2
